import Mathlib

/-!
Verification of the meme_ocr text-block codec and verify/retry loop.

The definitions below are a shallow embedding of the core of
src/meme_ocr.py: the text-block encoder (process_images, lines 169-171),
the block decoder (process_images, lines 188-206), the OCR normalization
(detect_text, line 81), the generation driver (process_images, lines
209-218) and the quality_control verify/retry loop (lines 88-130).
Strings are modelled as lists of characters; the Python whitespace and
line-break classes are modelled explicitly.
-/

namespace MemeOcr

/-- Characters that Python str.splitlines treats as line boundaries. -/
def isLineBreak (c : Char) : Bool :=
  c = '\n' || c = '\r' || c = '\x0b' || c = '\x0c' || c = '\x1c' ||
  c = '\x1d' || c = '\x1e' || c = '\x85' || c = '\u2028' || c = '\u2029'

/-- Characters that Python str.strip removes and that the regex class
matches for a str pattern: ASCII whitespace, the line-break set, the
unit separator 0x1f (whitespace for Python but not a line boundary),
and the Unicode space characters. -/
def pyIsSpace (c : Char) : Bool :=
  c = ' ' || c = '\t' || c = '\x1f' || isLineBreak c || c = '\xa0' || c = '\u1680' ||
  ('\u2000' ≤ c && c ≤ '\u200a') || c = '\u202f' || c = '\u205f' || c = '\u3000'

/-- Python str.strip: drop leading and trailing whitespace. -/
def pyStrip (s : List Char) : List Char :=
  ((s.dropWhile pyIsSpace).reverse.dropWhile pyIsSpace).reverse

/-- Split a list at every newline character, keeping empty segments. -/
def splitNl : List Char → List (List Char)
  | [] => [[]]
  | c :: rest =>
      if c = '\n' then [] :: splitNl rest
      else
        match splitNl rest with
        | [] => [[c]]
        | l :: ls => (c :: l) :: ls

/-- Join segments with a single newline separator, as the Python
newline join in process_images line 203 does. -/
def joinNL : List (List Char) → List Char
  | [] => []
  | [l] => l
  | l :: ls => l ++ '\n' :: joinNL ls

/-- Worker for Python str.splitlines: accumulate the current line in
reverse; a line-break character closes a line, a carriage return
directly followed by a newline counts as one boundary, and a trailing
boundary does not open a final empty line. -/
def splitlinesGo : List Char → List Char → List (List Char)
  | [], acc => [acc.reverse]
  | c :: rest, acc =>
      if isLineBreak c then
        if c = '\r' ∧ rest.head? = some '\n' then
          match rest with
          | [] => [acc.reverse]
          | _ :: rest' =>
              if rest' = [] then [acc.reverse] else acc.reverse :: splitlinesGo rest' []
        else
          if rest = [] then [acc.reverse] else acc.reverse :: splitlinesGo rest []
      else splitlinesGo rest (c :: acc)

/-- Python str.splitlines on a character list. -/
def splitlinesPy (s : List Char) : List (List Char) :=
  if s = [] then [] else splitlinesGo s []

/-- Scanner for the tail of the block separator regex: after an initial
newline, walk through whitespace remembering the position just past the
most recent newline seen; stop at the first non-whitespace character.
This is the greedy match of the remainder of the Python pattern used in
process_images line 192. -/
def sepTail : List Char → Option (List Char) → Option (List Char)
  | [], best => best
  | c :: cs, best =>
      if c = '\n' then sepTail cs (some cs)
      else if pyIsSpace c then sepTail cs best
      else best

/-- Leftmost greedy match of the blank-line separator regex at the head
of the input: a newline, then whitespace, then a final newline.  Returns
the remainder after the match. -/
def sepMatch : List Char → Option (List Char)
  | [] => none
  | c :: cs => if c = '\n' then sepTail cs none else none

/-- Fueled worker for the regex split of process_images line 192.  The
fuel is the length of the remaining input, so the zero-fuel clause with
a nonempty input is never reached from splitSepGo. -/
def splitSepF : Nat → List Char → List Char → List (List Char)
  | 0, s, acc => [acc.reverse ++ s]
  | _ + 1, [], acc => [acc.reverse]
  | fuel + 1, c :: cs, acc =>
      match sepMatch (c :: cs) with
      | some rest => acc.reverse :: splitSepF fuel rest []
      | none => splitSepF fuel cs (c :: acc)

/-- Regex split worker with the accumulated current piece reversed. -/
def splitSepGo (s acc : List Char) : List (List Char) :=
  splitSepF s.length s acc

/-- The regex split of the document into blocks (process_images line 192). -/
def splitSep (s : List Char) : List (List Char) :=
  splitSepGo s []

/-- A batch is the ordered id-to-text mapping built by the decoder; a
Python dict preserving insertion order. -/
abbrev Batch := List (List Char × List Char)

/-- Lookup in an association list, as Python dict indexing. -/
def alookup : Batch → List Char → Option (List Char)
  | [], _ => none
  | (k, v) :: m, k' => if k = k' then some v else alookup m k'

/-- Python dict assignment: overwrite the value in place when the key
exists, otherwise append the new binding at the end. -/
def upsert : Batch → List Char → List Char → Batch
  | [], k, v => [(k, v)]
  | (k', v') :: m, k, v =>
      if k' = k then (k', v) :: m else (k', v') :: upsert m k v

/-- Python str.endswith for a single colon. -/
def endsWithColon (s : List Char) : Bool :=
  s.getLast? == some ':'

/-- Warning text printed for a block header without a trailing colon
(process_images line 200). -/
def badHeaderMsg (h : List Char) : List Char :=
  "Warning: block header does not end with ".toList ++
    ['\x27', ':', '\x27'] ++ " -> ".toList ++ h

/-- Warning text printed for a block with no text (process_images line 205). -/
def noTextMsg (i : List Char) : List Char :=
  "Warning: No text found for image ".toList ++ i ++ ['.']

/-- The stripped lines of a block, after the block itself is stripped
(process_images lines 194-197). -/
def blockLines (block : List Char) : List (List Char) :=
  splitlinesPy (pyStrip block)

/-- The stripped header line of a block (process_images line 198). -/
def blockHeader (block : List Char) : List Char :=
  pyStrip ((blockLines block).headD [])

/-- The image name of a block: the header with the trailing colon
removed and surrounding whitespace stripped (process_images line 202). -/
def blockId (block : List Char) : List Char :=
  pyStrip (blockHeader block).dropLast

/-- The text of a block: the remaining lines, each stripped, the blank
ones dropped, rejoined with single newlines (process_images line 203). -/
def blockText (block : List Char) : List Char :=
  joinNL (((blockLines block).drop 1).filterMap
    (fun l => if pyStrip l = [] then none else some (pyStrip l)))

/-- Processing of one block of the corrected document: skip blank
blocks, warn and skip on a malformed header, otherwise insert the entry,
warning when its text is empty (process_images lines 193-206). -/
def processBlock (st : Batch × List (List Char)) (block : List Char) :
    Batch × List (List Char) :=
  if pyStrip block = [] then st
  else if endsWithColon (blockHeader block) = false then
    (st.1, st.2 ++ [badHeaderMsg (blockHeader block)])
  else
    (upsert st.1 (blockId block) (blockText block),
     if blockText block = [] then st.2 ++ [noTextMsg (blockId block)] else st.2)

/-- The decoder: split the document on blank-line separators and fold
the blocks into an ordered mapping, collecting the printed warnings
(process_images lines 188-206). -/
def decode (content : List Char) : Batch × List (List Char) :=
  (splitSep content).foldl processBlock ([], [])

/-- One encoded entry: the id, a colon, a newline, the text, then a
blank line (process_images line 171). -/
def encodeEntry (e : List Char × List Char) : List Char :=
  e.1 ++ ':' :: '\n' :: (e.2 ++ ['\n', '\n'])

/-- The encoder: concatenate the encoded entries in batch order
(process_images lines 169-171). -/
def encode : Batch → List Char
  | [] => []
  | e :: b => encodeEntry e ++ encode b

/-- The block that the separator split recovers for one encoded entry. -/
def pieceOf (e : List Char × List Char) : List Char :=
  if e.2 = [] then e.1 ++ [':'] else e.1 ++ ':' :: '\n' :: e.2

/-- OCR normalization from detect_text line 81: strip the detected
description, then replace every newline with a space. -/
def normalizeOCR (s : List Char) : List Char :=
  (pyStrip s).map (fun c => if c = '\n' then ' ' else c)

/-- Artifact file name for an id: the id with the fixed wav extension
(quality_control line 105, process_images line 213). -/
def artifactName (i : List Char) : List Char :=
  i ++ ".wav".toList

/-- The glob test of the final re-scan (quality_control line 124): a
file name matches the star-dot-wav pattern when it ends with the wav
extension; pathlib glob also matches names that begin with a dot. -/
def globWav (f : List Char) : Bool :=
  f.reverse.take 4 == ".wav".toList.reverse

/-- Python pathlib Path.stem: the name without its suffix, where the
suffix runs from the last dot to the end provided that dot is neither
the first character nor past the last one; a name such as .wav has no
suffix and is its own stem. -/
def pathStem (f : List Char) : List Char :=
  match f.reverse.findIdx? (fun c => c = '.') with
  | none => f
  | some j =>
      if 0 < f.length - 1 - j ∧ j ≠ 0 then f.take (f.length - 1 - j) else f

/-- The stems of the wav files the final re-scan finds by glob
(quality_control line 124). -/
def globStems (files : List (List Char)) : List (List Char) :=
  (files.filter globWav).map pathStem

/-- The final re-scan of quality_control line 124: the expected ids not
among the stems of the wav files present in the audio directory.  This
differs from the per-id exists check of the in-loop scan for the empty
id, whose artifact .wav is its own stem. -/
def finalMissing (expected files : List (List Char)) : List (List Char) :=
  expected.filter (fun n => ¬ n ∈ globStems files)

/-- Outcome of one call to the external TTS tool for one entry: it may
report success and write the artifact, report success while the artifact
is still missing, or return an error message. -/
inductive GenOutcome where
  | ok : GenOutcome
  | okNoFile : GenOutcome
  | err : List Char → GenOutcome
deriving DecidableEq

/-- State shared by the generation driver and the verify/retry loop:
the expected ids, the immutable corrected batch, the artifact files
present in the audio directory, and the recorded per-id error reasons. -/
structure LoopState where
  expected : List (List Char)
  batch : Batch
  files : List (List Char)
  reasons : Batch
deriving DecidableEq

/-- The scan of one round: the expected ids whose artifact file does not
exist (quality_control lines 103-107 and line 124). -/
def scanMissing (expected files : List (List Char)) : List (List Char) :=
  expected.filter (fun n => ¬ artifactName n ∈ files)

/-- One regeneration step for one missing id (quality_control lines
116-120): look the text up in the batch, call the generator, record the
artifact on success and the error reason on failure. -/
def qcStep (gen : Nat → List Char → List Char → GenOutcome) (attempt : Nat)
    (s : LoopState) (n : List Char) : LoopState :=
  match gen attempt n ((alookup s.batch n).getD []) with
  | .ok => { s with files := s.files ++ [artifactName n] }
  | .okNoFile => s
  | .err m => { s with reasons := upsert s.reasons n m }

/-- One regeneration pass over the missing ids (quality_control lines
115-120). -/
def qcRound (gen : Nat → List Char → List Char → GenOutcome) (attempt : Nat)
    (missing : List (List Char)) (st : LoopState) : LoopState :=
  missing.foldl (qcStep gen attempt) st

/-- The scan/regenerate loop of quality_control lines 100-121.  Returns
the final state, the number of regeneration rounds performed, and
whether the loop returned early with nothing missing. -/
def qcLoop (gen : Nat → List Char → List Char → GenOutcome) :
    Nat → Nat → LoopState → LoopState × Nat × Bool
  | 0, attempt, st => (st, attempt - 1, false)
  | fuel + 1, attempt, st =>
      let missing := scanMissing st.expected st.files
      if missing = [] then (st, attempt - 1, true)
      else qcLoop gen fuel (attempt + 1) (qcRound gen attempt missing st)

/-- Placeholder reason for an id that never recorded an error
(quality_control line 129). -/
def noErrMsg : List Char :=
  "No error message available.".toList

/-- Observable outcome of quality_control: the number of regeneration
rounds, whether the loop returned early, the final report, and the final
state. -/
structure QCOutcome where
  rounds : Nat
  earlyOk : Bool
  report : Batch
  final : LoopState
deriving DecidableEq

/-- The quality_control function (lines 88-130): expected ids are the
batch keys; run the loop; on exhaustion re-scan once more and report
every id still missing with its last recorded reason or the
placeholder. -/
def quality_control (gen : Nat → List Char → List Char → GenOutcome)
    (batch : Batch) (files0 : List (List Char)) (maxAttempts : Nat) : QCOutcome :=
  let r := qcLoop gen maxAttempts 1 ⟨batch.map Prod.fst, batch, files0, []⟩
  if r.2.2 then ⟨r.2.1, true, [], r.1⟩
  else
    ⟨r.2.1, false,
     (finalMissing r.1.expected r.1.files).map
       (fun n => (n, (alookup r.1.reasons n).getD noErrMsg)),
     r.1⟩

/-- Warning printed by the generation driver on a per-entry error
(process_images line 218). -/
def genWarnMsg (i m : List Char) : List Char :=
  "Warning: Error generating audio for ".toList ++ i ++ ':' :: ' ' :: m

/-- One step of the generation driver (process_images lines 211-218):
call the generator for one entry, record the artifact on success and a
warning on error. -/
def genStep (gen0 : List Char → List Char → GenOutcome)
    (p : LoopState × List (List Char)) (e : List Char × List Char) :
    LoopState × List (List Char) :=
  match gen0 e.1 e.2 with
  | .ok => ({ p.1 with files := p.1.files ++ [artifactName e.1] }, p.2)
  | .okNoFile => p
  | .err m => (p.1, p.2 ++ [genWarnMsg e.1 m])

/-- The generation driver of process_images lines 209-218: one
generation call per batch entry in order, collecting warnings; an error
for one entry does not stop the others. -/
def genDriver (gen0 : List Char → List Char → GenOutcome) (st : LoopState) :
    LoopState × List (List Char) :=
  st.batch.foldl (genStep gen0) (st, [])


/-- Head condition under which a separator match cannot continue into
the following region: empty, or starting with a non-whitespace character. -/
def headOk : List Char → Prop
  | [] => True
  | c :: _ => pyIsSpace c = false

/-- A well-formed identifier: stripped, without colon or line breaks. -/
def GoodId (i : List Char) : Prop :=
  pyStrip i = i ∧ ':' ∉ i ∧ ∀ c ∈ i, isLineBreak c = false

/-- A well-formed text line: nonempty, stripped, without line breaks. -/
def GoodLine (l : List Char) : Prop :=
  l ≠ [] ∧ pyStrip l = l ∧ ∀ c ∈ l, isLineBreak c = false

/-- Decidable form of the id condition of the round-trip law. -/
def goodIdB (i : List Char) : Bool :=
  (pyStrip i == i) && i.all (fun c => !(c == ':') && !(isLineBreak c))

/-- Decidable form of the line condition of the round-trip law. -/
def goodLineB (l : List Char) : Bool :=
  !(l.isEmpty) && (pyStrip l == l) && l.all (fun c => !(isLineBreak c))

/-- Decidable text condition of the amended round-trip law: the text is
empty, or every newline-separated line is nonempty, stripped and free of
further line-break characters. -/
def goodTextB (t : List Char) : Bool :=
  t.isEmpty || (splitNl t).all goodLineB

/-- Decidable id condition quoted by the original round-trip claim: no
colon, no newline, no leading or trailing whitespace. -/
def claimIdB (i : List Char) : Bool :=
  i.all (fun c => !(c == ':') && !(c == '\n')) && (pyStrip i == i)

/-- Decidable text condition quoted by the original round-trip claim:
no blank lines. -/
def noBlankLinesB (t : List Char) : Bool :=
  (splitNl t).all (fun l => !(pyStrip l).isEmpty)

/-- The texts of the well-formed blocks of a document whose id is k, in
document order. -/
def writesOf (d k : List Char) : List (List Char) :=
  (splitSep d).filterMap (fun p =>
    if pyStrip p = [] then none
    else if endsWithColon (blockHeader p) = false then none
    else if blockId p = k then some (blockText p) else none)

/-- First defined option, used to state the last-write characterization. -/
def firstSome (a b : Option (List Char)) : Option (List Char) :=
  match a with
  | some v => some v
  | none => b

/-- The shapes of warning the decoder can emit: a malformed-header
warning or an empty-text warning. -/
def decodeWarningShape (w : List Char) : Prop :=
  (∃ h, w = badHeaderMsg h) ∨ (∃ i, w = noTextMsg i)

/-- Scenario sink for the convergence test: ids a and c succeed on the
first attempt, id b only from the second attempt on. -/
def genC2 (attempt : Nat) (i _t : List Char) : GenOutcome :=
  if i = "b".toList then (if 2 ≤ attempt then .ok else .err ("tts failed".toList))
  else .ok

/-- Expected batch for the reconciliation scenarios. -/
def batchABC : Batch :=
  [("a".toList, "ta".toList), ("b".toList, "tb".toList), ("c".toList, "tc".toList)]

/-- Error message of the exhaustion scenario, distinct per attempt. -/
def ttsErr (attempt : Nat) : List Char :=
  'e' :: List.replicate attempt '!'

/-- Scenario sink for the exhaustion test: a fails once then succeeds,
b always fails with a fresh message, c reports success without ever
writing its artifact. -/
def genC3 (attempt : Nat) (i _t : List Char) : GenOutcome :=
  if i = "a".toList then (if 2 ≤ attempt then .ok else .err (ttsErr attempt))
  else if i = "b".toList then .err (ttsErr attempt)
  else .okNoFile

/-- Sink for the exhaustion counterexample: every generation call
fails. -/
def genCE (_attempt : Nat) (_i _t : List Char) : GenOutcome :=
  .err ("balcon failed".toList)

/-- Batch for the exhaustion counterexample: the empty id next to an
ordinary one. -/
def batchCE : Batch :=
  [([], "empty".toList), ("b".toList, "tb".toList)]

/-! ### Lemmas about stripping -/

theorem dropWhile_eq_self_of_head (p : Char → Bool) :
    ∀ s : List Char, (∀ c, s.head? = some c → p c = false) → s.dropWhile p = s
  | [], _ => rfl
  | c :: cs, h => by
      have hc : p c = false := h c rfl
      simp [List.dropWhile_cons, hc]

theorem pyStrip_length_le_dropWhile (s : List Char) :
    (pyStrip s).length ≤ (s.dropWhile pyIsSpace).length := by
  have h := (List.dropWhile_suffix pyIsSpace
    (l := (s.dropWhile pyIsSpace).reverse)).length_le
  simpa [pyStrip] using h

theorem pyStrip_eq_self (s : List Char)
    (h1 : ∀ c, s.head? = some c → pyIsSpace c = false)
    (h2 : ∀ c, s.getLast? = some c → pyIsSpace c = false) :
    pyStrip s = s := by
  unfold pyStrip
  rw [dropWhile_eq_self_of_head pyIsSpace s h1,
      dropWhile_eq_self_of_head pyIsSpace s.reverse
        (fun c hc => h2 c (by rwa [List.head?_reverse] at hc)),
      List.reverse_reverse]

theorem head_not_space_of_dropWhile_eq (p : Char → Bool) (s : List Char)
    (h : s.dropWhile p = s) (c : Char) (hc : s.head? = some c) : p c = false := by
  cases s with
  | nil => simp at hc
  | cons a as =>
      have hac : a = c := by simpa using hc
      subst hac
      by_contra hp
      rw [Bool.not_eq_false] at hp
      have h1 : List.dropWhile p (a :: as) = List.dropWhile p as := by
        rw [List.dropWhile_cons, if_pos hp]
      have h2 : (a :: as).length ≤ as.length := by
        rw [← h, h1]
        exact (List.dropWhile_suffix p).length_le
      simp at h2

theorem dropWhile_eq_self_of_pyStrip_eq (s : List Char) (h : pyStrip s = s) :
    s.dropWhile pyIsSpace = s := by
  have hle : s.length ≤ (s.dropWhile pyIsSpace).length := by
    calc s.length = (pyStrip s).length := by rw [h]
    _ ≤ _ := pyStrip_length_le_dropWhile s
  exact (List.dropWhile_suffix pyIsSpace).eq_of_length
    (le_antisymm (List.dropWhile_suffix pyIsSpace).length_le hle)

theorem dropWhile_reverse_eq_of_pyStrip_eq (s : List Char) (h : pyStrip s = s) :
    s.reverse.dropWhile pyIsSpace = s.reverse := by
  have h0 := h
  unfold pyStrip at h0
  rw [dropWhile_eq_self_of_pyStrip_eq s h] at h0
  calc s.reverse.dropWhile pyIsSpace
      = (s.reverse.dropWhile pyIsSpace).reverse.reverse := (List.reverse_reverse _).symm
    _ = s.reverse := by rw [h0]

theorem head_not_space_of_pyStrip_eq (s : List Char) (h : pyStrip s = s)
    (c : Char) (hc : s.head? = some c) : pyIsSpace c = false :=
  head_not_space_of_dropWhile_eq pyIsSpace s (dropWhile_eq_self_of_pyStrip_eq s h) c hc

theorem getLast_not_space_of_pyStrip_eq (s : List Char) (h : pyStrip s = s)
    (c : Char) (hc : s.getLast? = some c) : pyIsSpace c = false :=
  head_not_space_of_dropWhile_eq pyIsSpace s.reverse
    (dropWhile_reverse_eq_of_pyStrip_eq s h) c (by rwa [List.head?_reverse])

/-! ### Lemmas about splitNl and joinNL -/

theorem splitNl_cons_nl (rest : List Char) :
    splitNl ('\n' :: rest) = [] :: splitNl rest := by
  simp [splitNl]

theorem splitNl_ne_nil : ∀ s : List Char, splitNl s ≠ []
  | [] => by simp [splitNl]
  | c :: rest => by
      simp only [splitNl]
      split
      · simp
      · split <;> simp

theorem splitNl_cons_other (c : Char) (rest l : List Char) (ls : List (List Char))
    (hc : ¬ c = '\n') (hr : splitNl rest = l :: ls) :
    splitNl (c :: rest) = (c :: l) :: ls := by
  simp [splitNl, hc, hr]

theorem splitNl_dest (s : List Char) : ∃ l ls, splitNl s = l :: ls := by
  cases h : splitNl s with
  | nil => exact absurd h (splitNl_ne_nil s)
  | cons l ls => exact ⟨l, ls, rfl⟩

theorem joinNL_cons_cons (a b : List Char) (t : List (List Char)) :
    joinNL (a :: b :: t) = a ++ '\n' :: joinNL (b :: t) := rfl

theorem joinNL_cons_head (c : Char) (l : List Char) (ls : List (List Char)) :
    joinNL ((c :: l) :: ls) = c :: joinNL (l :: ls) := by
  cases ls with
  | nil => rfl
  | cons x xs => simp [joinNL_cons_cons]

theorem splitNl_no_nl (l : List Char) (h : '\n' ∉ l) : splitNl l = [l] := by
  induction l with
  | nil => rfl
  | cons c rest ih =>
      have hc : ¬ c = '\n' := fun hc => h (by simp [hc])
      have hr := ih (fun hm => h (by simp [hm]))
      simp [splitNl, hc, hr]

theorem splitNl_append_nl (l w : List Char) (h : '\n' ∉ l) :
    splitNl (l ++ '\n' :: w) = l :: splitNl w := by
  induction l with
  | nil => simp [splitNl]
  | cons c rest ih =>
      have hc : ¬ c = '\n' := fun hc => h (by simp [hc])
      have hr := ih (fun hm => h (by simp [hm]))
      simp [splitNl, hc, hr]

theorem splitNl_joinNL : ∀ ls : List (List Char), ls ≠ [] →
    (∀ l ∈ ls, '\n' ∉ l) → splitNl (joinNL ls) = ls
  | [], h, _ => absurd rfl h
  | [l], _, hl => by
      simpa [joinNL] using splitNl_no_nl l (hl l (by simp))
  | l :: l' :: ls, _, hl => by
      rw [joinNL_cons_cons, splitNl_append_nl l _ (hl l (by simp)),
          splitNl_joinNL (l' :: ls) (by simp) (fun x hx => hl x (by simp [hx]))]

theorem joinNL_splitNl : ∀ s : List Char, joinNL (splitNl s) = s
  | [] => rfl
  | c :: rest => by
      have ih := joinNL_splitNl rest
      obtain ⟨l, ls, hls⟩ := splitNl_dest rest
      rw [hls] at ih
      by_cases hc : c = '\n'
      · subst hc
        rw [splitNl_cons_nl, hls, joinNL_cons_cons, List.nil_append, ih]
      · rw [splitNl_cons_other c rest l ls hc hls, joinNL_cons_head, ih]

/-! ### Bridge between Python splitlines and the newline split -/

theorem splitlinesGo_cons_nl (r : Char) (rs acc : List Char) :
    splitlinesGo ('\n' :: r :: rs) acc = acc.reverse :: splitlinesGo (r :: rs) [] := rfl

theorem splitlinesGo_cons_other (c : Char) (rest acc : List Char)
    (hbr : isLineBreak c = false) :
    splitlinesGo (c :: rest) acc = splitlinesGo rest (c :: acc) := by
  rw [splitlinesGo.eq_def]
  simp [hbr]

theorem splitlinesGo_bridge : ∀ (s acc : List Char),
    (∀ c ∈ s, isLineBreak c = true → c = '\n') → s.getLast? ≠ some '\n' →
    splitlinesGo s acc = (acc.reverse ++ (splitNl s).headD []) :: (splitNl s).tail
  | [], acc, _, _ => by simp [splitlinesGo, splitNl]
  | c :: rest, acc, h1, h2 => by
      by_cases hc : c = '\n'
      · subst hc
        cases rest with
        | nil => exact absurd rfl h2
        | cons r rs =>
            have h2' : (r :: rs).getLast? ≠ some '\n' := by
              rwa [List.getLast?_cons_cons] at h2
            have h1' : ∀ x ∈ r :: rs, isLineBreak x = true → x = '\n' :=
              fun x hx => h1 x (by simp [hx])
            have ih := splitlinesGo_bridge (r :: rs) [] h1' h2'
            obtain ⟨l, ls, hls⟩ := splitNl_dest (r :: rs)
            rw [hls] at ih
            rw [splitlinesGo_cons_nl, ih, splitNl_cons_nl, hls]
            simp
      · have hbr : isLineBreak c = false := by
          cases h : isLineBreak c with
          | false => rfl
          | true => exact absurd (h1 c (by simp) h) hc
        have h2' : rest.getLast? ≠ some '\n' := by
          cases rest with
          | nil => simp
          | cons r rs => rwa [List.getLast?_cons_cons] at h2
        have h1' : ∀ x ∈ rest, isLineBreak x = true → x = '\n' :=
          fun x hx => h1 x (by simp [hx])
        have ih := splitlinesGo_bridge rest (c :: acc) h1' h2'
        obtain ⟨l, ls, hls⟩ := splitNl_dest rest
        rw [hls] at ih
        rw [splitlinesGo_cons_other c rest acc hbr, ih,
            splitNl_cons_other c rest l ls hc hls]
        simp

theorem splitlinesPy_eq_splitNl (s : List Char) (hne : s ≠ [])
    (h1 : ∀ c ∈ s, isLineBreak c = true → c = '\n') (h2 : s.getLast? ≠ some '\n') :
    splitlinesPy s = splitNl s := by
  unfold splitlinesPy
  rw [if_neg hne, splitlinesGo_bridge s [] h1 h2]
  obtain ⟨l, ls, hls⟩ := splitNl_dest s
  simp [hls]

/-! ### Lemmas about the separator split -/

theorem sepTail_nil (b : Option (List Char)) : sepTail [] b = b := rfl

theorem sepTail_cons (c : Char) (cs : List Char) (b : Option (List Char)) :
    sepTail (c :: cs) b =
      if c = '\n' then sepTail cs (some cs)
      else if pyIsSpace c then sepTail cs b else b := rfl

theorem sepMatch_cons (c : Char) (cs : List Char) :
    sepMatch (c :: cs) = if c = '\n' then sepTail cs none else none := rfl

theorem sepMatch_not_nl (c : Char) (cs : List Char) (h : ¬ c = '\n') :
    sepMatch (c :: cs) = none := by
  rw [sepMatch_cons, if_neg h]

theorem sepTail_cases : ∀ (l : List Char) (b : Option (List Char)) (r : List Char),
    sepTail l b = some r → b = some r ∨ r.length < l.length
  | [], _, _, h => Or.inl h
  | c :: cs, b, r, h => by
      rw [sepTail_cons] at h
      by_cases hc : c = '\n'
      · rw [if_pos hc] at h
        rcases sepTail_cases cs (some cs) r h with h1 | h1
        · right
          obtain rfl : cs = r := by simpa using h1
          simp
        · right
          exact Nat.lt_trans h1 (by simp)
      · rw [if_neg hc] at h
        by_cases hw : pyIsSpace c
        · rw [if_pos hw] at h
          rcases sepTail_cases cs b r h with h1 | h1
          · exact Or.inl h1
          · exact Or.inr (Nat.lt_trans h1 (by simp))
        · rw [if_neg hw] at h
          exact Or.inl h

theorem sepMatch_length (s r : List Char) (h : sepMatch s = some r) :
    r.length + 1 < s.length := by
  cases s with
  | nil => simp [sepMatch] at h
  | cons c cs =>
      rw [sepMatch_cons] at h
      by_cases hc : c = '\n'
      · rw [if_pos hc] at h
        rcases sepTail_cases cs none r h with h1 | h1
        · simp at h1
        · simpa using Nat.succ_lt_succ h1
      · rw [if_neg hc] at h
        simp at h

theorem splitSepF_nil (n : Nat) (acc : List Char) :
    splitSepF n [] acc = [acc.reverse] := by
  cases n with
  | zero => simp [splitSepF]
  | succ k => rfl

theorem splitSepF_cons (n : Nat) (c : Char) (cs acc : List Char) :
    splitSepF (n + 1) (c :: cs) acc =
      match sepMatch (c :: cs) with
      | some rest => acc.reverse :: splitSepF n rest []
      | none => splitSepF n cs (c :: acc) := rfl

theorem splitSepF_fuel : ∀ (n m : Nat) (s acc : List Char),
    s.length ≤ n → s.length ≤ m → splitSepF n s acc = splitSepF m s acc
  | n, m, [], acc, _, _ => by rw [splitSepF_nil, splitSepF_nil]
  | n, m, c :: cs, acc, hn, hm => by
      obtain ⟨n0, rfl⟩ : ∃ n0, n = n0 + 1 := by
        cases n with
        | zero => simp at hn
        | succ k => exact ⟨k, rfl⟩
      obtain ⟨m0, rfl⟩ : ∃ m0, m = m0 + 1 := by
        cases m with
        | zero => simp at hm
        | succ k => exact ⟨k, rfl⟩
      have hn0 : cs.length ≤ n0 := by simpa using hn
      have hm0 : cs.length ≤ m0 := by simpa using hm
      rw [splitSepF_cons, splitSepF_cons]
      cases h : sepMatch (c :: cs) with
      | none => exact splitSepF_fuel n0 m0 cs (c :: acc) hn0 hm0
      | some rest =>
          have hr : rest.length ≤ cs.length := by
            have := sepMatch_length (c :: cs) rest h
            simp at this
            omega
          show acc.reverse :: splitSepF n0 rest [] = acc.reverse :: splitSepF m0 rest []
          rw [splitSepF_fuel n0 m0 rest [] (le_trans hr hn0) (le_trans hr hm0)]

theorem splitSepGo_nil (acc : List Char) : splitSepGo [] acc = [acc.reverse] := by
  simp [splitSepGo, splitSepF]

theorem splitSepGo_cons_none (c : Char) (cs acc : List Char)
    (h : sepMatch (c :: cs) = none) :
    splitSepGo (c :: cs) acc = splitSepGo cs (c :: acc) := by
  unfold splitSepGo
  rw [show (c :: cs).length = cs.length + 1 from rfl, splitSepF_cons, h]

theorem splitSepGo_cons_some (c : Char) (cs acc rest : List Char)
    (h : sepMatch (c :: cs) = some rest) :
    splitSepGo (c :: cs) acc = acc.reverse :: splitSepGo rest [] := by
  unfold splitSepGo
  rw [show (c :: cs).length = cs.length + 1 from rfl, splitSepF_cons, h]
  have hr : rest.length ≤ cs.length := by
    have := sepMatch_length (c :: cs) rest h
    simp at this
    omega
  show acc.reverse :: splitSepF cs.length rest [] = acc.reverse :: splitSepF rest.length rest []
  rw [splitSepF_fuel cs.length rest.length rest [] hr (le_refl _)]

theorem splitSepGo_walk_no_nl : ∀ (l : List Char), '\n' ∉ l →
    ∀ (rest acc : List Char),
    splitSepGo (l ++ rest) acc = splitSepGo rest (l.reverse ++ acc)
  | [], _, rest, acc => by simp
  | c :: l', h, rest, acc => by
      have hc : ¬ c = '\n' := fun hc => h (by simp [hc])
      have h' : '\n' ∉ l' := fun hm => h (by simp [hm])
      rw [List.cons_append,
          splitSepGo_cons_none c (l' ++ rest) acc (sepMatch_not_nl c _ hc),
          splitSepGo_walk_no_nl l' h' rest (c :: acc)]
      simp

theorem splitSepGo_step_nl (s acc : List Char) (h : headOk s) :
    splitSepGo ('\n' :: s) acc = splitSepGo s ('\n' :: acc) := by
  apply splitSepGo_cons_none
  rw [sepMatch_cons, if_pos rfl]
  cases s with
  | nil => rfl
  | cons c cs =>
      have hw : pyIsSpace c = false := h
      have hc : ¬ c = '\n' := by
        intro hc
        rw [hc] at hw
        simp [pyIsSpace, isLineBreak] at hw
      rw [sepTail_cons, if_neg hc, if_neg (by simp [hw])]

/-! ### Separator matches around encoded entries -/

theorem sepTail_stop (r : List Char) (h : headOk r) : sepTail r (some r) = some r := by
  cases r with
  | nil => rfl
  | cons c cs =>
      have hw : pyIsSpace c = false := h
      have hc : ¬ c = '\n' := by
        intro hc
        rw [hc] at hw
        simp [pyIsSpace, isLineBreak] at hw
      rw [sepTail_cons, if_neg hc, if_neg (by simp [hw])]

theorem sepMatch_two_nl (r : List Char) (h : headOk r) :
    sepMatch ('\n' :: '\n' :: r) = some r := by
  rw [sepMatch_cons, if_pos rfl, sepTail_cons, if_pos rfl, sepTail_stop r h]

theorem sepMatch_three_nl (r : List Char) (h : headOk r) :
    sepMatch ('\n' :: '\n' :: '\n' :: r) = some r := by
  rw [sepMatch_cons, if_pos rfl, sepTail_cons, if_pos rfl, sepTail_cons, if_pos rfl,
      sepTail_stop r h]

/-! ### Properties of well-formed lines and joins -/

theorem GoodLine.no_nl {l : List Char} (hl : GoodLine l) : '\n' ∉ l := by
  intro hm
  have := hl.2.2 '\n' hm
  simp [isLineBreak] at this

theorem joinNL_ne_nil : ∀ (ls : List (List Char)), ls ≠ [] →
    (∀ l ∈ ls, GoodLine l) → joinNL ls ≠ []
  | [], h, _ => absurd rfl h
  | [l], _, hl => by simpa [joinNL] using (hl l (by simp)).1
  | l :: l' :: t, _, hl => by
      rw [joinNL_cons_cons]
      rcases l with _ | ⟨c, cs⟩
      · simp
      · simp

theorem headOk_append_of (l w : List Char) (hne : l ≠ []) (hstrip : pyStrip l = l) :
    headOk (l ++ w) := by
  cases l with
  | nil => exact absurd rfl hne
  | cons c cs =>
      show pyIsSpace c = false
      exact head_not_space_of_pyStrip_eq (c :: cs) hstrip c rfl

theorem joinNL_cons_as_append (l : List Char) (ls : List (List Char)) (X : List Char) :
    ∃ w, joinNL (l :: ls) ++ X = l ++ w := by
  cases ls with
  | nil => exact ⟨X, by simp [joinNL]⟩
  | cons l' t => exact ⟨'\n' :: joinNL (l' :: t) ++ X, by simp [joinNL_cons_cons]⟩

theorem headOk_joinNL_append (l : List Char) (ls : List (List Char)) (X : List Char)
    (hl : GoodLine l) : headOk (joinNL (l :: ls) ++ X) := by
  obtain ⟨w, hw⟩ := joinNL_cons_as_append l ls X
  rw [hw]
  exact headOk_append_of l w hl.1 hl.2.1

theorem mem_joinNL : ∀ (ls : List (List Char)) (c : Char), c ∈ joinNL ls →
    c = '\n' ∨ ∃ l ∈ ls, c ∈ l
  | [], _, h => by simp [joinNL] at h
  | [l], c, h => by
      right
      exact ⟨l, by simp, by simpa [joinNL] using h⟩
  | l :: l' :: t, c, h => by
      rw [joinNL_cons_cons] at h
      rcases List.mem_append.mp h with h1 | h1
      · exact Or.inr ⟨l, by simp, h1⟩
      · rcases List.mem_cons.mp h1 with h2 | h2
        · exact Or.inl h2
        · rcases mem_joinNL (l' :: t) c h2 with h3 | ⟨x, hx, hcx⟩
          · exact Or.inl h3
          · exact Or.inr ⟨x, by simp [List.mem_cons.mp hx], hcx⟩

/-! ### Walking the separator split over an encoded document -/

theorem splitSepGo_walk_text : ∀ (ls : List (List Char)), ls ≠ [] →
    (∀ l ∈ ls, GoodLine l) → ∀ (E acc : List Char), headOk E →
    splitSepGo (joinNL ls ++ '\n' :: '\n' :: E) acc =
      (acc.reverse ++ joinNL ls) :: splitSepGo E []
  | [], h, _, _, _, _ => absurd rfl h
  | [l], _, hl, E, acc, hE => by
      have hnl : '\n' ∉ l := (hl l (by simp)).no_nl
      rw [show joinNL [l] = l from rfl, splitSepGo_walk_no_nl l hnl _ acc,
          splitSepGo_cons_some _ _ _ E (sepMatch_two_nl E hE)]
      simp
  | l :: l' :: t, _, hl, E, acc, hE => by
      have hnl : '\n' ∉ l := (hl l (by simp)).no_nl
      have hrest : ∀ x ∈ l' :: t, GoodLine x := fun x hx => hl x (by simp [List.mem_cons.mp hx])
      have hho : headOk (joinNL (l' :: t) ++ '\n' :: '\n' :: E) :=
        headOk_joinNL_append l' t _ (hrest l' (by simp))
      rw [joinNL_cons_cons,
          show (l ++ '\n' :: joinNL (l' :: t)) ++ '\n' :: '\n' :: E
             = l ++ '\n' :: (joinNL (l' :: t) ++ '\n' :: '\n' :: E) by simp,
          splitSepGo_walk_no_nl l hnl _ acc,
          splitSepGo_step_nl _ _ hho,
          splitSepGo_walk_text (l' :: t) (by simp) hrest E ('\n' :: (l.reverse ++ acc)) hE]
      simp

theorem GoodId.no_nl_colon {i : List Char} (hid : GoodId i) : '\n' ∉ i ++ [':'] := by
  intro hm
  rcases List.mem_append.mp hm with h | h
  · have := hid.2.2 '\n' h
    simp [isLineBreak] at this
  · simp at h

theorem headOk_id_colon (i : List Char) (hid : GoodId i) (w : List Char) :
    headOk (i ++ [':'] ++ w) := by
  cases i with
  | nil =>
      show pyIsSpace ':' = false
      decide
  | cons c cs =>
      show pyIsSpace c = false
      exact head_not_space_of_pyStrip_eq (c :: cs) hid.1 c rfl

theorem splitSepGo_encodeEntry (i t : List Char) (ls : List (List Char))
    (hid : GoodId i) (ht : t = joinNL ls) (hls : ∀ l ∈ ls, GoodLine l)
    (E acc : List Char) (hE : headOk E) :
    splitSepGo (encodeEntry (i, t) ++ E) acc =
      (acc.reverse ++ pieceOf (i, t)) :: splitSepGo E [] := by
  cases ls with
  | nil =>
      have ht0 : t = [] := by simpa [joinNL] using ht
      subst ht0
      rw [show encodeEntry (i, []) ++ E = (i ++ [':']) ++ '\n' :: '\n' :: '\n' :: E by
            simp [encodeEntry],
          splitSepGo_walk_no_nl (i ++ [':']) hid.no_nl_colon _ acc,
          splitSepGo_cons_some _ _ _ E (sepMatch_three_nl E hE)]
      simp [pieceOf]
  | cons l ls' =>
      have hne : t ≠ [] := by
        rw [ht]
        exact joinNL_ne_nil (l :: ls') (by simp) hls
      rw [show encodeEntry (i, t) ++ E = (i ++ [':']) ++ '\n' :: (t ++ '\n' :: '\n' :: E) by
            simp [encodeEntry],
          splitSepGo_walk_no_nl (i ++ [':']) hid.no_nl_colon _ acc,
          splitSepGo_step_nl _ _ (by rw [ht]; exact headOk_joinNL_append l ls' _ (hls l (by simp))),
          ht, splitSepGo_walk_text (l :: ls') (by simp) hls E _ hE]
      simp [pieceOf, ← ht, hne]

theorem encode_cons (e : List Char × List Char) (b : Batch) :
    encode (e :: b) = encodeEntry e ++ encode b := rfl

theorem headOk_encode : ∀ (b : Batch), (∀ e ∈ b, GoodId e.1) → headOk (encode b)
  | [], _ => trivial
  | (i, t) :: b', h => by
      rw [encode_cons]
      have hid : GoodId i := h (i, t) (by simp)
      have : encodeEntry (i, t) ++ encode b' = i ++ [':'] ++ ('\n' :: (t ++ ['\n', '\n']) ++ encode b') := by
        simp [encodeEntry]
      rw [this]
      exact headOk_id_colon i hid _

theorem splitSep_encode : ∀ (b : Batch),
    (∀ e ∈ b, GoodId e.1 ∧ ∃ ls, e.2 = joinNL ls ∧ ∀ l ∈ ls, GoodLine l) →
    splitSep (encode b) = b.map pieceOf ++ [[]]
  | [], _ => by simp [splitSep, encode, splitSepGo_nil]
  | (i, t) :: b', h => by
      obtain ⟨hid, ls, ht, hls⟩ := h (i, t) (by simp)
      have hE := headOk_encode b' (fun e he => (h e (by simp [he])).1)
      show splitSepGo (encode ((i, t) :: b')) [] = _
      rw [encode_cons, splitSepGo_encodeEntry i t ls hid ht hls _ [] hE]
      have ih := splitSep_encode b' (fun e he => h e (by simp [he]))
      rw [show splitSepGo (encode b') [] = splitSep (encode b') from rfl, ih]
      simp

/-! ### Decoding one piece of an encoded document -/

theorem joinNL_getLast_not_space : ∀ (ls : List (List Char)), (∀ l ∈ ls, GoodLine l) →
    ∀ c, (joinNL ls).getLast? = some c → pyIsSpace c = false
  | [], _, c, h => by simp [joinNL] at h
  | [l], hl, c, h =>
      getLast_not_space_of_pyStrip_eq l (hl l (by simp)).2.1 c (by simpa [joinNL] using h)
  | l :: l' :: t, hl, c, h => by
      have hrest : ∀ x ∈ l' :: t, GoodLine x :=
        fun x hx => hl x (by simp [List.mem_cons.mp hx])
      have hJ : joinNL (l' :: t) ≠ [] := joinNL_ne_nil _ (by simp) hrest
      rw [joinNL_cons_cons, List.getLast?_append_of_ne_nil _ (by simp)] at h
      cases hJ' : joinNL (l' :: t) with
      | nil => exact absurd hJ' hJ
      | cons j js =>
          rw [hJ', List.getLast?_cons_cons] at h
          rw [← hJ'] at h
          exact joinNL_getLast_not_space (l' :: t) hrest c h

theorem pieceOf_head_not_space (i t : List Char) (hid : GoodId i) (c : Char)
    (hc : (pieceOf (i, t)).head? = some c) : pyIsSpace c = false := by
  unfold pieceOf at hc
  cases i with
  | nil =>
      have hcc : c = ':' := by
        by_cases h0 : t = []
        · rw [if_pos h0, List.nil_append, List.head?_cons] at hc
          exact (Option.some.inj hc).symm
        · rw [if_neg h0, List.nil_append, List.head?_cons] at hc
          exact (Option.some.inj hc).symm
      subst hcc
      decide
  | cons a as =>
      have hcc : c = a := by
        by_cases h0 : t = []
        · rw [if_pos h0, List.cons_append, List.head?_cons] at hc
          exact (Option.some.inj hc).symm
        · rw [if_neg h0, List.cons_append, List.head?_cons] at hc
          exact (Option.some.inj hc).symm
      subst hcc
      exact head_not_space_of_pyStrip_eq (c :: as) hid.1 c rfl

theorem pieceOf_getLast_not_space (i t : List Char) (ls : List (List Char))
    (_hid : GoodId i) (ht : t = joinNL ls) (hls : ∀ l ∈ ls, GoodLine l) (c : Char)
    (hc : (pieceOf (i, t)).getLast? = some c) : pyIsSpace c = false := by
  unfold pieceOf at hc
  by_cases h0 : t = []
  · rw [if_pos h0, List.getLast?_concat] at hc
    obtain rfl : ':' = c := by simpa using hc
    decide
  · rw [if_neg h0, List.getLast?_append_of_ne_nil _ (by simp),
        List.getLast?_cons_cons] at hc
    cases ht0 : t with
    | nil => exact absurd ht0 h0
    | cons x xs =>
        rw [ht0, List.getLast?_cons_cons, ← ht0] at hc
        rw [ht] at hc
        exact joinNL_getLast_not_space ls hls c hc

theorem pieceOf_ne_nil (i t : List Char) : pieceOf (i, t) ≠ [] := by
  unfold pieceOf
  by_cases h0 : t = [] <;> simp [h0]

theorem pieceOf_strip (i t : List Char) (ls : List (List Char)) (hid : GoodId i)
    (ht : t = joinNL ls) (hls : ∀ l ∈ ls, GoodLine l) :
    pyStrip (pieceOf (i, t)) = pieceOf (i, t) :=
  pyStrip_eq_self _ (pieceOf_head_not_space i t hid)
    (pieceOf_getLast_not_space i t ls hid ht hls)

theorem pieceOf_only_nl (i t : List Char) (ls : List (List Char)) (hid : GoodId i)
    (ht : t = joinNL ls) (hls : ∀ l ∈ ls, GoodLine l) :
    ∀ c ∈ pieceOf (i, t), isLineBreak c = true → c = '\n' := by
  intro c hc hbr
  unfold pieceOf at hc
  by_cases h0 : t = []
  · rw [if_pos h0] at hc
    rcases List.mem_append.mp hc with h | h
    · exact absurd hbr (by simp [hid.2.2 c h])
    · simp at h
      subst h
      simp [isLineBreak] at hbr
  · rw [if_neg h0] at hc
    rcases List.mem_append.mp hc with h | h
    · exact absurd hbr (by simp [hid.2.2 c h])
    · rcases List.mem_cons.mp h with h1 | h1
      · subst h1
        simp [isLineBreak] at hbr
      · rcases List.mem_cons.mp h1 with h2 | h2
        · exact h2
        · rw [ht] at h2
          rcases mem_joinNL ls c h2 with h3 | ⟨l, hl, hcl⟩
          · exact h3
          · exact absurd hbr (by simp [(hls l hl).2.2 c hcl])

theorem pieceOf_getLast_ne_nl (i t : List Char) (ls : List (List Char)) (hid : GoodId i)
    (ht : t = joinNL ls) (hls : ∀ l ∈ ls, GoodLine l) :
    (pieceOf (i, t)).getLast? ≠ some '\n' := by
  intro h
  have := pieceOf_getLast_not_space i t ls hid ht hls '\n' h
  simp [pyIsSpace, isLineBreak] at this

theorem pieceOf_splitNl (i t : List Char) (ls : List (List Char)) (hid : GoodId i)
    (ht : t = joinNL ls) (hls : ∀ l ∈ ls, GoodLine l) :
    splitNl (pieceOf (i, t)) = (i ++ [':']) :: ls := by
  cases ls with
  | nil =>
      have ht0 : t = [] := by simpa [joinNL] using ht
      subst ht0
      unfold pieceOf
      rw [if_pos rfl]
      exact splitNl_no_nl _ hid.no_nl_colon
  | cons l ls' =>
      have hne : t ≠ [] := by
        rw [ht]
        exact joinNL_ne_nil (l :: ls') (by simp) hls
      unfold pieceOf
      rw [if_neg hne,
          show i ++ ':' :: '\n' :: t = (i ++ [':']) ++ '\n' :: t by simp,
          splitNl_append_nl _ _ hid.no_nl_colon, ht,
          splitNl_joinNL (l :: ls') (by simp) (fun x hx => (hls x hx).no_nl)]

theorem pieceOf_blockLines (i t : List Char) (ls : List (List Char)) (hid : GoodId i)
    (ht : t = joinNL ls) (hls : ∀ l ∈ ls, GoodLine l) :
    blockLines (pieceOf (i, t)) = (i ++ [':']) :: ls := by
  unfold blockLines
  rw [pieceOf_strip i t ls hid ht hls,
      splitlinesPy_eq_splitNl _ (pieceOf_ne_nil i t)
        (pieceOf_only_nl i t ls hid ht hls)
        (pieceOf_getLast_ne_nl i t ls hid ht hls),
      pieceOf_splitNl i t ls hid ht hls]

theorem id_colon_strip (i : List Char) (hid : GoodId i) :
    pyStrip (i ++ [':']) = i ++ [':'] := by
  apply pyStrip_eq_self
  · intro c hc
    cases i with
    | nil =>
        obtain rfl : c = ':' := by simpa using hc.symm
        decide
    | cons a as =>
        have hcc : c = a := by
          rw [List.cons_append, List.head?_cons] at hc
          exact (Option.some.inj hc).symm
        subst hcc
        exact head_not_space_of_pyStrip_eq (c :: as) hid.1 c rfl
  · intro c hc
    rw [List.getLast?_concat] at hc
    obtain rfl : c = ':' := by simpa using hc.symm
    decide

theorem filterMap_strip_goodLines : ∀ (ls : List (List Char)), (∀ l ∈ ls, GoodLine l) →
    ls.filterMap (fun l => if pyStrip l = [] then none else some (pyStrip l)) = ls
  | [], _ => rfl
  | l :: t, h => by
      have hl := h l (by simp)
      rw [List.filterMap_cons]
      simp only [hl.2.1, if_neg hl.1]
      rw [filterMap_strip_goodLines t (fun x hx => h x (by simp [hx]))]

theorem processBlock_pieceOf (m : Batch) (w : List (List Char)) (i t : List Char)
    (ls : List (List Char)) (hid : GoodId i) (ht : t = joinNL ls)
    (hls : ∀ l ∈ ls, GoodLine l) :
    processBlock (m, w) (pieceOf (i, t)) =
      (upsert m i t, if t = [] then w ++ [noTextMsg i] else w) := by
  have hlines := pieceOf_blockLines i t ls hid ht hls
  have hheader : blockHeader (pieceOf (i, t)) = i ++ [':'] := by
    unfold blockHeader
    rw [hlines]
    exact id_colon_strip i hid
  have hidp : blockId (pieceOf (i, t)) = i := by
    unfold blockId
    rw [hheader, List.dropLast_concat, hid.1]
  have htext : blockText (pieceOf (i, t)) = t := by
    unfold blockText
    rw [hlines]
    simp only [List.drop_succ_cons, List.drop_zero]
    rw [filterMap_strip_goodLines ls hls, ← ht]
  have hcolon : endsWithColon (blockHeader (pieceOf (i, t))) = true := by
    rw [hheader]
    simp [endsWithColon, List.getLast?_concat]
  unfold processBlock
  rw [pieceOf_strip i t ls hid ht hls, if_neg (pieceOf_ne_nil i t), hcolon]
  simp only [Bool.true_eq_false, if_false, hidp, htext]

theorem processBlock_nil (st : Batch × List (List Char)) : processBlock st [] = st := rfl

/-! ### Folding the decoded pieces back into the batch -/

theorem upsert_cons (k' v' k v : List Char) (m : Batch) :
    upsert ((k', v') :: m) k v =
      if k' = k then (k', v) :: m else (k', v') :: upsert m k v := rfl

theorem upsert_not_mem : ∀ (m : Batch) (k v : List Char),
    ¬ k ∈ m.map Prod.fst → upsert m k v = m ++ [(k, v)]
  | [], _, _, _ => rfl
  | (k', v') :: m', k, v, h => by
      have hk : ¬ k' = k := fun he => h (by simp [he])
      rw [upsert_cons, if_neg hk,
          upsert_not_mem m' k v (fun hm => h (by simp [hm])), List.cons_append]

theorem decode_fold_pieces : ∀ (b m : Batch) (w : List (List Char)),
    (∀ e ∈ b, GoodId e.1 ∧ ∃ ls, e.2 = joinNL ls ∧ ∀ l ∈ ls, GoodLine l) →
    (b.map Prod.fst).Nodup →
    (∀ k ∈ b.map Prod.fst, ¬ k ∈ m.map Prod.fst) →
    List.foldl processBlock (m, w) (b.map pieceOf) =
      (m ++ b, w ++ b.filterMap (fun e => if e.2 = [] then some (noTextMsg e.1) else none))
  | [], m, w, _, _, _ => by simp
  | (i, t) :: b', m, w, hg, hnd, hdj => by
      obtain ⟨hid, ls, ht, hls⟩ := hg (i, t) (by simp)
      have hi_not : ¬ i ∈ m.map Prod.fst := hdj i (by simp)
      have hnd' : (b'.map Prod.fst).Nodup := (List.nodup_cons.mp (by simpa using hnd)).2
      have hi_nin : ¬ i ∈ b'.map Prod.fst := (List.nodup_cons.mp (by simpa using hnd)).1
      have hdj' : ∀ k ∈ b'.map Prod.fst, ¬ k ∈ (m ++ [(i, t)]).map Prod.fst := by
        intro k hk
        simp only [List.map_append, List.mem_append]
        rintro (h | h)
        · exact hdj k (by simp [hk]) h
        · simp at h
          subst h
          exact hi_nin hk
      rw [List.map_cons, List.foldl_cons, processBlock_pieceOf m w i t ls hid ht hls,
          upsert_not_mem m i t hi_not,
          decode_fold_pieces b' (m ++ [(i, t)]) _ (fun e he => hg e (by simp [he])) hnd' hdj']
      by_cases h0 : t = [] <;> simp [h0, List.filterMap_cons, List.append_assoc]

theorem decode_encode_core (b : Batch)
    (hnd : (b.map Prod.fst).Nodup)
    (hg : ∀ e ∈ b, GoodId e.1 ∧ ∃ ls, e.2 = joinNL ls ∧ ∀ l ∈ ls, GoodLine l) :
    decode (encode b) =
      (b, b.filterMap (fun e => if e.2 = [] then some (noTextMsg e.1) else none)) := by
  unfold decode
  rw [splitSep_encode b hg, List.foldl_append,
      decode_fold_pieces b [] [] hg hnd (by simp)]
  simp [processBlock_nil]

/-! ### From the decidable conditions to the structured ones -/

theorem goodIdB_good (i : List Char) (h : goodIdB i = true) : GoodId i := by
  unfold goodIdB at h
  simp only [Bool.and_eq_true, beq_iff_eq, List.all_eq_true] at h
  refine ⟨h.1, ?_, ?_⟩
  · intro hm
    have := h.2 ':' hm
    simp at this
  · intro c hc
    have := h.2 c hc
    simp only [Bool.and_eq_true, Bool.not_eq_true'] at this
    exact this.2

theorem goodLineB_good (l : List Char) (h : goodLineB l = true) : GoodLine l := by
  unfold goodLineB at h
  simp only [Bool.and_eq_true, beq_iff_eq, List.all_eq_true, Bool.not_eq_true'] at h
  refine ⟨?_, h.1.2, ?_⟩
  · intro he
    subst he
    simp at h
  · intro c hc
    simpa using h.2 c hc

theorem goodTextB_elim (t : List Char) (h : goodTextB t = true) :
    ∃ ls, t = joinNL ls ∧ ∀ l ∈ ls, GoodLine l := by
  unfold goodTextB at h
  by_cases h0 : t = []
  · exact ⟨[], by simp [h0, joinNL], by simp⟩
  · obtain ⟨x, xs, rfl⟩ : ∃ x xs, t = x :: xs := by
      cases t with
      | nil => exact absurd rfl h0
      | cons x xs => exact ⟨x, xs, rfl⟩
    have hall : (splitNl (x :: xs)).all goodLineB = true := by simpa using h
    exact ⟨splitNl (x :: xs), (joinNL_splitNl (x :: xs)).symm,
      fun l hl => goodLineB_good l (List.all_eq_true.mp hall l hl)⟩

/-! ### Generic properties of the decode fold -/

theorem processBlock_cases (st : Batch × List (List Char)) (p : List Char) :
    (pyStrip p = [] ∧ processBlock st p = st) ∨
    (pyStrip p ≠ [] ∧ endsWithColon (blockHeader p) = false ∧
      processBlock st p = (st.1, st.2 ++ [badHeaderMsg (blockHeader p)])) ∨
    (pyStrip p ≠ [] ∧ endsWithColon (blockHeader p) = true ∧
      processBlock st p = (upsert st.1 (blockId p) (blockText p),
        if blockText p = [] then st.2 ++ [noTextMsg (blockId p)] else st.2)) := by
  unfold processBlock
  by_cases h1 : pyStrip p = []
  · exact Or.inl ⟨h1, by rw [if_pos h1]⟩
  · by_cases h2 : endsWithColon (blockHeader p) = false
    · exact Or.inr (Or.inl ⟨h1, h2, by rw [if_neg h1, if_pos h2]⟩)
    · have h2' : endsWithColon (blockHeader p) = true := by
        cases h : endsWithColon (blockHeader p) with
        | false => exact absurd h h2
        | true => rfl
      exact Or.inr (Or.inr ⟨h1, h2', by rw [if_neg h1, if_neg (by simp [h2'])]⟩)

theorem processBlock_warn_mono (st : Batch × List (List Char)) (p : List Char)
    (x : List Char) (h : x ∈ st.2) : x ∈ (processBlock st p).2 := by
  rcases processBlock_cases st p with ⟨_, he⟩ | ⟨_, _, he⟩ | ⟨_, _, he⟩ <;> rw [he]
  · exact h
  · simp [h]
  · split <;> simp [h]

theorem foldl_warn_mono : ∀ (ps : List (List Char)) (st : Batch × List (List Char))
    (x : List Char), x ∈ st.2 → x ∈ (ps.foldl processBlock st).2
  | [], _, _, h => h
  | p :: ps, st, x, h => foldl_warn_mono ps _ x (processBlock_warn_mono st p x h)

theorem keys_upsert_mem : ∀ (m : Batch) (k v : List Char),
    k ∈ (upsert m k v).map Prod.fst
  | [], k, v => by simp [upsert]
  | (k', v') :: m', k, v => by
      rw [upsert_cons]
      by_cases hk : k' = k
      · rw [if_pos hk]
        simp [hk]
      · rw [if_neg hk]
        simpa using Or.inr (keys_upsert_mem m' k v)

theorem keys_upsert_superset : ∀ (m : Batch) (k v x : List Char),
    x ∈ m.map Prod.fst → x ∈ (upsert m k v).map Prod.fst
  | [], k, v, x, h => by simp at h
  | (k', v') :: m', k, v, x, h => by
      rw [upsert_cons]
      rcases (by simpa using h : x = k' ∨ x ∈ m'.map Prod.fst) with h1 | h1
      · by_cases hk : k' = k
        · rw [if_pos hk]
          simp [h1]
        · rw [if_neg hk]
          simp [h1]
      · by_cases hk : k' = k
        · rw [if_pos hk]
          simpa using Or.inr h1
        · rw [if_neg hk]
          simpa using Or.inr (keys_upsert_superset m' k v x h1)

theorem keys_upsert_sub : ∀ (m : Batch) (k v x : List Char),
    x ∈ (upsert m k v).map Prod.fst → x ∈ m.map Prod.fst ∨ x = k
  | [], k, v, x, h => by
      simp [upsert] at h
      exact Or.inr h
  | (k', v') :: m', k, v, x, h => by
      rw [upsert_cons] at h
      by_cases hk : k' = k
      · rw [if_pos hk] at h
        rcases (by simpa using h : x = k' ∨ x ∈ m'.map Prod.fst) with h1 | h1
        · exact Or.inl (by simp [h1])
        · exact Or.inl (by simp [h1])
      · rw [if_neg hk] at h
        rcases (by simpa using h : x = k' ∨ x ∈ (upsert m' k v).map Prod.fst) with h1 | h1
        · exact Or.inl (by simp [h1])
        · rcases keys_upsert_sub m' k v x h1 with h2 | h2
          · exact Or.inl (by simp [h2])
          · exact Or.inr h2

theorem nodup_keys_upsert : ∀ (m : Batch) (k v : List Char),
    (m.map Prod.fst).Nodup → ((upsert m k v).map Prod.fst).Nodup
  | [], k, v, _ => by simp [upsert]
  | (k', v') :: m', k, v, h => by
      rw [List.map_cons] at h
      have h' := List.nodup_cons.mp h
      by_cases hk : k' = k
      · rw [upsert_cons, if_pos hk, List.map_cons]
        exact List.nodup_cons.mpr h'
      · rw [upsert_cons, if_neg hk, List.map_cons]
        refine List.nodup_cons.mpr ⟨?_, nodup_keys_upsert m' k v h'.2⟩
        intro hmem
        rcases keys_upsert_sub m' k v k' hmem with h1 | h1
        · exact h'.1 h1
        · exact hk h1

theorem processBlock_keys_mono (st : Batch × List (List Char)) (p : List Char)
    (k : List Char) (h : k ∈ st.1.map Prod.fst) : k ∈ (processBlock st p).1.map Prod.fst := by
  rcases processBlock_cases st p with ⟨_, he⟩ | ⟨_, _, he⟩ | ⟨_, _, he⟩ <;> rw [he]
  · exact h
  · exact h
  · exact keys_upsert_superset st.1 _ _ k h

theorem foldl_keys_mono : ∀ (ps : List (List Char)) (st : Batch × List (List Char))
    (k : List Char), k ∈ st.1.map Prod.fst → k ∈ (ps.foldl processBlock st).1.map Prod.fst
  | [], _, _, h => h
  | p :: ps, st, k, h => foldl_keys_mono ps _ k (processBlock_keys_mono st p k h)

theorem foldl_badHeader_mem : ∀ (ps : List (List Char)) (st : Batch × List (List Char))
    (p : List Char), p ∈ ps → pyStrip p ≠ [] → endsWithColon (blockHeader p) = false →
    badHeaderMsg (blockHeader p) ∈ (ps.foldl processBlock st).2
  | [], _, _, h, _, _ => absurd h (List.not_mem_nil _)
  | q :: ps, st, p, hmem, h1, h2 => by
      rcases List.mem_cons.mp hmem with rfl | hp
      · have hstep : badHeaderMsg (blockHeader p) ∈ (processBlock st p).2 := by
          rcases processBlock_cases st p with ⟨he, _⟩ | ⟨_, _, he⟩ | ⟨_, hc, _⟩
          · exact absurd he h1
          · rw [he]
            simp
          · rw [h2] at hc
            simp at hc
        exact foldl_warn_mono ps _ _ hstep
      · exact foldl_badHeader_mem ps _ p hp h1 h2

theorem foldl_noText_mem : ∀ (ps : List (List Char)) (st : Batch × List (List Char))
    (p : List Char), p ∈ ps → pyStrip p ≠ [] → endsWithColon (blockHeader p) = true →
    blockText p = [] → noTextMsg (blockId p) ∈ (ps.foldl processBlock st).2
  | [], _, _, h, _, _, _ => absurd h (List.not_mem_nil _)
  | q :: ps, st, p, hmem, h1, h2, h3 => by
      rcases List.mem_cons.mp hmem with rfl | hp
      · have hstep : noTextMsg (blockId p) ∈ (processBlock st p).2 := by
          rcases processBlock_cases st p with ⟨he, _⟩ | ⟨_, hc, _⟩ | ⟨_, _, he⟩
          · exact absurd he h1
          · rw [h2] at hc
            simp at hc
          · rw [he, if_pos h3]
            simp
        exact foldl_warn_mono ps _ _ hstep
      · exact foldl_noText_mem ps _ p hp h1 h2 h3

theorem foldl_wf_key_mem : ∀ (ps : List (List Char)) (st : Batch × List (List Char))
    (p : List Char), p ∈ ps → pyStrip p ≠ [] → endsWithColon (blockHeader p) = true →
    blockId p ∈ (ps.foldl processBlock st).1.map Prod.fst
  | [], _, _, h, _, _ => absurd h (List.not_mem_nil _)
  | q :: ps, st, p, hmem, h1, h2 => by
      rcases List.mem_cons.mp hmem with rfl | hp
      · have hstep : blockId p ∈ (processBlock st p).1.map Prod.fst := by
          rcases processBlock_cases st p with ⟨he, _⟩ | ⟨_, hc, _⟩ | ⟨_, _, he⟩
          · exact absurd he h1
          · rw [h2] at hc
            simp at hc
          · rw [he]
            exact keys_upsert_mem st.1 _ _
        exact foldl_keys_mono ps _ _ hstep
      · exact foldl_wf_key_mem ps _ p hp h1 h2

theorem mem_upsert : ∀ (m : Batch) (k v : List Char) (x : List Char × List Char),
    x ∈ upsert m k v → x ∈ m ∨ x = (k, v)
  | [], k, v, x, h => Or.inr (by simpa [upsert] using h)
  | (k', v') :: m', k, v, x, h => by
      rw [upsert_cons] at h
      by_cases hk : k' = k
      · rw [if_pos hk] at h
        rcases List.mem_cons.mp h with h1 | h1
        · exact Or.inr (by rw [h1, hk])
        · exact Or.inl (List.mem_cons_of_mem _ h1)
      · rw [if_neg hk] at h
        rcases List.mem_cons.mp h with h1 | h1
        · exact Or.inl (by simp [h1])
        · rcases mem_upsert m' k v x h1 with h2 | h2
          · exact Or.inl (by simp [h2])
          · exact Or.inr h2

theorem foldl_entry_provenance : ∀ (ps : List (List Char)) (st : Batch × List (List Char))
    (i t : List Char), (i, t) ∈ (ps.foldl processBlock st).1 → (i, t) ∈ st.1 ∨
      ∃ p ∈ ps, pyStrip p ≠ [] ∧ endsWithColon (blockHeader p) = true ∧
        i = blockId p ∧ t = blockText p
  | [], st, i, t, h => Or.inl h
  | q :: ps, st, i, t, h => by
      rcases foldl_entry_provenance ps (processBlock st q) i t h with h1 | ⟨p, hp, h2⟩
      · rcases processBlock_cases st q with ⟨_, he⟩ | ⟨_, _, he⟩ | ⟨hq1, hq2, he⟩
        · rw [he] at h1
          exact Or.inl h1
        · rw [he] at h1
          exact Or.inl h1
        · rw [he] at h1
          rcases mem_upsert st.1 _ _ _ h1 with h3 | h3
          · exact Or.inl h3
          · have h4 := Prod.ext_iff.mp h3
            exact Or.inr ⟨q, by simp, hq1, hq2, h4.1, h4.2⟩
      · exact Or.inr ⟨p, by simp [hp], h2⟩

/-! ### The last-write characterization of the decoded mapping -/

theorem firstSome_none (b : Option (List Char)) : firstSome none b = b := rfl

theorem firstSome_some (v : List Char) (b : Option (List Char)) :
    firstSome (some v) b = some v := rfl

theorem firstSome_assoc (a b c : Option (List Char)) :
    firstSome (firstSome a b) c = firstSome a (firstSome b c) := by
  cases a <;> rfl

theorem firstSome_none_right (a : Option (List Char)) : firstSome a none = a := by
  cases a <;> rfl

theorem getLast?_cons_firstSome : ∀ (v : List Char) (l : List (List Char)),
    (v :: l).getLast? = firstSome l.getLast? (some v)
  | _, [] => rfl
  | v, x :: xs => by
      rw [List.getLast?_cons_cons]
      obtain ⟨y, hy⟩ : ∃ y, (x :: xs).getLast? = some y := by
        rw [getLast?_cons_firstSome x xs]
        cases xs.getLast? with
        | none => exact ⟨x, rfl⟩
        | some z => exact ⟨z, rfl⟩
      rw [hy]
      rfl

theorem alookup_cons (k' v' : List Char) (m : Batch) (k : List Char) :
    alookup ((k', v') :: m) k = if k' = k then some v' else alookup m k := rfl

theorem alookup_upsert_self : ∀ (m : Batch) (k v : List Char),
    alookup (upsert m k v) k = some v
  | [], k, v => by simp [upsert, alookup]
  | (k', v') :: m', k, v => by
      rw [upsert_cons]
      by_cases hk : k' = k
      · rw [if_pos hk, alookup_cons, if_pos hk]
      · rw [if_neg hk, alookup_cons, if_neg hk]
        exact alookup_upsert_self m' k v

theorem alookup_upsert_other : ∀ (m : Batch) (k v k' : List Char), ¬ k = k' →
    alookup (upsert m k v) k' = alookup m k'
  | [], k, v, k', h => by
      show alookup [(k, v)] k' = alookup [] k'
      rw [alookup_cons, if_neg h]
  | (a, b) :: m', k, v, k', h => by
      rw [upsert_cons]
      by_cases ha : a = k
      · by_cases ha' : a = k'
        · exact absurd (ha.symm.trans ha') h
        · rw [if_pos ha, alookup_cons, if_neg ha', alookup_cons, if_neg ha']
      · rw [if_neg ha, alookup_cons, alookup_cons]
        by_cases ha' : a = k'
        · rw [if_pos ha', if_pos ha']
        · rw [if_neg ha', if_neg ha', alookup_upsert_other m' k v k' h]

theorem alookup_mem : ∀ (m : Batch) (k v : List Char),
    alookup m k = some v → (k, v) ∈ m
  | [], k, v, h => by simp [alookup] at h
  | (a, b) :: m', k, v, h => by
      rw [alookup_cons] at h
      by_cases ha : a = k
      · rw [if_pos ha] at h
        obtain rfl := Option.some.inj h
        simp [ha.symm]
      · rw [if_neg ha] at h
        exact List.mem_cons_of_mem _ (alookup_mem m' k v h)

theorem foldl_alookup : ∀ (ps : List (List Char)) (st : Batch × List (List Char))
    (k : List Char),
    alookup (ps.foldl processBlock st).1 k =
      firstSome (ps.filterMap (fun p =>
          if pyStrip p = [] then none
          else if endsWithColon (blockHeader p) = false then none
          else if blockId p = k then some (blockText p) else none)).getLast?
        (alookup st.1 k)
  | [], st, k => by simp [firstSome_none]
  | q :: ps, st, k => by
      have ih := foldl_alookup ps (processBlock st q) k
      rw [List.foldl_cons, List.filterMap_cons]
      rcases processBlock_cases st q with ⟨h1, he⟩ | ⟨h1, h2, he⟩ | ⟨h1, h2, he⟩
      · rw [if_pos h1, ih, he]
      · rw [if_neg h1, if_pos h2, ih, he]
      · rw [if_neg h1, if_neg (by simp [h2])]
        by_cases hk : blockId q = k
        · have hlk : alookup (processBlock st q).1 k = some (blockText q) := by
            rw [he, ← hk]
            exact alookup_upsert_self st.1 _ _
          rw [if_pos hk, ih, hlk, getLast?_cons_firstSome, firstSome_assoc, firstSome_some]
        · have hlk : alookup (processBlock st q).1 k = alookup st.1 k := by
            rw [he]
            exact alookup_upsert_other st.1 _ _ k hk
          rw [if_neg hk, ih, hlk]

/-! ### Remaining helpers for the decode fold -/

theorem foldl_keys_nodup : ∀ (ps : List (List Char)) (st : Batch × List (List Char)),
    (st.1.map Prod.fst).Nodup → ((ps.foldl processBlock st).1.map Prod.fst).Nodup
  | [], _, h => h
  | q :: ps, st, h => by
      apply foldl_keys_nodup ps (processBlock st q)
      rcases processBlock_cases st q with ⟨_, he⟩ | ⟨_, _, he⟩ | ⟨_, _, he⟩ <;> rw [he]
      · exact h
      · exact h
      · exact nodup_keys_upsert st.1 _ _ h

theorem foldl_warn_shape : ∀ (ps : List (List Char)) (st : Batch × List (List Char)),
    (∀ x ∈ st.2, decodeWarningShape x) →
    ∀ x ∈ (ps.foldl processBlock st).2, decodeWarningShape x
  | [], _, h => h
  | q :: ps, st, h => by
      apply foldl_warn_shape ps (processBlock st q)
      intro x hx
      rcases processBlock_cases st q with ⟨_, he⟩ | ⟨_, _, he⟩ | ⟨_, _, he⟩
      · rw [he] at hx
        exact h x hx
      · have hx' : x ∈ st.2 ++ [badHeaderMsg (blockHeader q)] := by
          rw [he] at hx
          exact hx
        rcases List.mem_append.mp hx' with h1 | h1
        · exact h x h1
        · exact Or.inl ⟨_, by simpa using h1⟩
      · by_cases h0 : blockText q = []
        · have hx' : x ∈ st.2 ++ [noTextMsg (blockId q)] := by
            rw [he, if_pos h0] at hx
            exact hx
          rcases List.mem_append.mp hx' with h1 | h1
          · exact h x h1
          · exact Or.inr ⟨_, by simpa using h1⟩
        · have hx' : x ∈ st.2 := by
            rw [he, if_neg h0] at hx
            exact hx
          exact h x hx'

/-! ### Frame lemmas for the generation driver and the retry loop -/

theorem qcStep_frame (gen : Nat → List Char → List Char → GenOutcome) (attempt : Nat)
    (st : LoopState) (n : List Char) :
    (qcStep gen attempt st n).expected = st.expected ∧
    (qcStep gen attempt st n).batch = st.batch := by
  unfold qcStep
  cases gen attempt n ((alookup st.batch n).getD []) <;> exact ⟨rfl, rfl⟩

theorem qcRound_frame (gen : Nat → List Char → List Char → GenOutcome) (attempt : Nat) :
    ∀ (ms : List (List Char)) (st : LoopState),
    (qcRound gen attempt ms st).expected = st.expected ∧
    (qcRound gen attempt ms st).batch = st.batch
  | [], st => ⟨rfl, rfl⟩
  | n :: ms, st => by
      have h1 := qcRound_frame gen attempt ms (qcStep gen attempt st n)
      have h2 := qcStep_frame gen attempt st n
      exact ⟨h1.1.trans h2.1, h1.2.trans h2.2⟩

theorem qcLoop_succ (gen : Nat → List Char → List Char → GenOutcome)
    (fuel attempt : Nat) (st : LoopState) :
    qcLoop gen (fuel + 1) attempt st =
      if scanMissing st.expected st.files = [] then (st, attempt - 1, true)
      else qcLoop gen fuel (attempt + 1)
        (qcRound gen attempt (scanMissing st.expected st.files) st) := rfl

theorem qcLoop_frame (gen : Nat → List Char → List Char → GenOutcome) :
    ∀ (fuel attempt : Nat) (st : LoopState),
    (qcLoop gen fuel attempt st).1.expected = st.expected ∧
    (qcLoop gen fuel attempt st).1.batch = st.batch
  | 0, attempt, st => ⟨rfl, rfl⟩
  | fuel + 1, attempt, st => by
      rw [qcLoop_succ]
      by_cases h : scanMissing st.expected st.files = []
      · rw [if_pos h]
        exact ⟨rfl, rfl⟩
      · rw [if_neg h]
        have h1 := qcLoop_frame gen fuel (attempt + 1)
          (qcRound gen attempt (scanMissing st.expected st.files) st)
        have h2 := qcRound_frame gen attempt (scanMissing st.expected st.files) st
        exact ⟨h1.1.trans h2.1, h1.2.trans h2.2⟩

theorem genStep_frame (gen0 : List Char → List Char → GenOutcome)
    (p : LoopState × List (List Char)) (e : List Char × List Char) :
    (genStep gen0 p e).1.expected = p.1.expected ∧
    (genStep gen0 p e).1.batch = p.1.batch := by
  unfold genStep
  cases gen0 e.1 e.2 <;> exact ⟨rfl, rfl⟩

theorem genFold_frame (gen0 : List Char → List Char → GenOutcome) :
    ∀ (es : List (List Char × List Char)) (p : LoopState × List (List Char)),
    (es.foldl (genStep gen0) p).1.expected = p.1.expected ∧
    (es.foldl (genStep gen0) p).1.batch = p.1.batch
  | [], _ => ⟨rfl, rfl⟩
  | e :: es, p => by
      have h1 := genFold_frame gen0 es (genStep gen0 p e)
      have h2 := genStep_frame gen0 p e
      exact ⟨h1.1.trans h2.1, h1.2.trans h2.2⟩

/-! ### Claim theorems -/

theorem contains_nl_map_replace : ∀ (l : List Char),
    ((l.map (fun c => if c = '\n' then ' ' else c)).contains '\n') = false
  | [] => rfl
  | c :: cs => by
      rw [List.map_cons, List.contains_cons, contains_nl_map_replace cs]
      by_cases hc : c = '\n'
      · rw [if_pos hc]
        rfl
      · rw [if_neg hc]
        have hc' : ¬ '\n' = c := fun h => hc h.symm
        simp [hc']

/-- C8: OCR normalization: detect_text places into the batch the
stripped detected description with every newline replaced by a space
(line 81), so the string that reaches the encoder contains no newline. -/
theorem ocr_normalize_no_newline (s : List Char) :
    ((normalizeOCR s).contains '\n') = false :=
  contains_nl_map_replace (pyStrip s)

/-- C9: frame property: over any number of rounds the verify/retry loop
leaves the expected id set and the batch mapping of its state unchanged,
and the generation driver likewise reads the batch without mutating it;
only the artifact files and the per-id error bookkeeping change. -/
theorem batch_expected_frame (gen : Nat → List Char → List Char → GenOutcome)
    (gen0 : List Char → List Char → GenOutcome) (fuel attempt : Nat) (st : LoopState) :
    (qcLoop gen fuel attempt st).1.expected = st.expected ∧
    (qcLoop gen fuel attempt st).1.batch = st.batch ∧
    (genDriver gen0 st).1.expected = st.expected ∧
    (genDriver gen0 st).1.batch = st.batch :=
  ⟨(qcLoop_frame gen fuel attempt st).1, (qcLoop_frame gen fuel attempt st).2,
   (genFold_frame gen0 st.batch (st, [])).1, (genFold_frame gen0 st.batch (st, [])).2⟩

/-- C4: multiline decode rule: every entry of the decoded batch comes
from some block of the blank-line split whose stripped header ends with
a colon; its id is the header without the colon, stripped, and its text
is the remaining non-blank lines of the block, each stripped, joined
with single newlines (the definition of blockText). -/
theorem decode_entry_multiline_rule (d i t : List Char)
    (h : (i, t) ∈ (decode d).1) :
    ∃ p ∈ splitSep d, pyStrip p ≠ [] ∧ endsWithColon (blockHeader p) = true ∧
      i = blockId p ∧ t = blockText p := by
  rcases foldl_entry_provenance (splitSep d) ([], []) i t h with h1 | h1
  · simp at h1
  · exact h1

theorem decode_entry_multiline_rule_witness :
    ("img1".toList, "Hi\nthere".toList) ∈ (decode ("img1:\n  Hi \nthere\n\n".toList)).1 ∧
    ∃ p ∈ splitSep ("img1:\n  Hi \nthere\n\n".toList),
      pyStrip p ≠ [] ∧ endsWithColon (blockHeader p) = true ∧
      "img1".toList = blockId p ∧ "Hi\nthere".toList = blockText p :=
  ⟨by decide, decode_entry_multiline_rule ("img1:\n  Hi \nthere\n\n".toList)
    ("img1".toList) ("Hi\nthere".toList) (by decide)⟩

/-- C5: malformed header skip: a nonempty block whose stripped header
does not end with a colon makes decode emit the malformed-header warning
for that header; every well-formed block of the document still gets its
id into the decoded batch, and every decoded entry originates from a
well-formed block, so the malformed block contributes no entry. -/
theorem decode_malformed_header_skip (d block : List Char)
    (h1 : block ∈ splitSep d) (h2 : pyStrip block ≠ [])
    (h3 : endsWithColon (blockHeader block) = false) :
    badHeaderMsg (blockHeader block) ∈ (decode d).2 ∧
    (∀ q ∈ splitSep d, pyStrip q ≠ [] → endsWithColon (blockHeader q) = true →
      blockId q ∈ (decode d).1.map Prod.fst) ∧
    (∀ i t, (i, t) ∈ (decode d).1 →
      ∃ p ∈ splitSep d, pyStrip p ≠ [] ∧ endsWithColon (blockHeader p) = true ∧
        i = blockId p ∧ t = blockText p) := by
  refine ⟨foldl_badHeader_mem (splitSep d) ([], []) block h1 h2 h3,
    fun q hq hq1 hq2 => foldl_wf_key_mem (splitSep d) ([], []) q hq hq1 hq2,
    fun i t ht => ?_⟩
  rcases foldl_entry_provenance (splitSep d) ([], []) i t ht with h4 | h4
  · simp at h4
  · exact h4

theorem decode_malformed_header_skip_witness :
    badHeaderMsg (blockHeader ("badheader".toList)) ∈
      (decode ("good1:\ntext one\n\nbadheader\n\ngood2:\ntext two\n\n".toList)).2 ∧
    blockId ("good2:\ntext two".toList) ∈
      (decode ("good1:\ntext one\n\nbadheader\n\ngood2:\ntext two\n\n".toList)).1.map Prod.fst := by
  have h := decode_malformed_header_skip
    ("good1:\ntext one\n\nbadheader\n\ngood2:\ntext two\n\n".toList)
    ("badheader".toList) (by decide) (by decide) (by decide)
  exact ⟨h.1, h.2.1 ("good2:\ntext two".toList) (by decide) (by decide) (by decide)⟩

/-- C6: duplicate id last-wins: for every document and id, the decoded
mapping binds the id to the text of the last well-formed block with that
id (the getLast? of its write list); the decoded mapping holds at most
one entry per id, and every warning decode ever emits is a
malformed-header or empty-text warning, so no warning accompanies the
overwrite. -/
theorem decode_duplicate_last_wins (d k : List Char) :
    alookup (decode d).1 k = (writesOf d k).getLast? ∧
    ((decode d).1.map Prod.fst).Nodup ∧
    ∀ w ∈ (decode d).2, decodeWarningShape w := by
  refine ⟨?_, foldl_keys_nodup (splitSep d) ([], []) (by simp),
    foldl_warn_shape (splitSep d) ([], []) (by simp)⟩
  have h := foldl_alookup (splitSep d) ([], []) k
  rw [show alookup (([], []) : Batch × List (List Char)).1 k = none from rfl,
      firstSome_none_right] at h
  exact h

theorem decode_duplicate_last_wins_witness :
    alookup (decode ("dup:\nfirst\n\x1f\ndup:\nsecond\n\n".toList)).1 ("dup".toList) =
      some ("second".toList) ∧
    ((decode ("dup:\nfirst\n\x1f\ndup:\nsecond\n\n".toList)).1.map Prod.fst).Nodup ∧
    (decode ("dup:\nfirst\n\x1f\ndup:\nsecond\n\n".toList)).2 = [] := by
  have h := decode_duplicate_last_wins ("dup:\nfirst\n\x1f\ndup:\nsecond\n\n".toList)
    ("dup".toList)
  exact ⟨h.1.trans (by decide), h.2.1, by decide⟩

/-- C7: empty-text block handling: a nonempty block with a well-formed
header and no remaining non-blank line makes decode emit the no-text
warning for its id; the id still reaches the decoded batch, and when the
last write for that id is the empty text the batch binds the id to the
empty string. -/
theorem decode_empty_text_block (d block : List Char)
    (h1 : block ∈ splitSep d) (h2 : pyStrip block ≠ [])
    (h3 : endsWithColon (blockHeader block) = true) (h4 : blockText block = []) :
    noTextMsg (blockId block) ∈ (decode d).2 ∧
    blockId block ∈ (decode d).1.map Prod.fst ∧
    ((writesOf d (blockId block)).getLast? = some [] →
      (blockId block, ([] : List Char)) ∈ (decode d).1) := by
  refine ⟨foldl_noText_mem (splitSep d) ([], []) block h1 h2 h3 h4,
    foldl_wf_key_mem (splitSep d) ([], []) block h1 h2 h3, fun hlast => ?_⟩
  apply alookup_mem
  have h := foldl_alookup (splitSep d) ([], []) (blockId block)
  rw [show alookup (([], []) : Batch × List (List Char)).1 (blockId block) = none from rfl,
      firstSome_none_right] at h
  exact h.trans hlast

theorem decode_empty_text_block_witness :
    noTextMsg (blockId ("empty1:".toList)) ∈
      (decode ("empty1:\n\nfull:\nhello\n\n".toList)).2 ∧
    (blockId ("empty1:".toList), ([] : List Char)) ∈
      (decode ("empty1:\n\nfull:\nhello\n\n".toList)).1 := by
  have h := decode_empty_text_block ("empty1:\n\nfull:\nhello\n\n".toList)
    ("empty1:".toList) (by decide) (by decide) (by decide) (by decide)
  exact ⟨h.1, h.2.2 (by decide)⟩

/-- C10: empty-id edge case: a nonempty block whose stripped header is
just a colon is accepted: its id is the empty string, the empty id
reaches the decoded batch, the downstream artifact name for the empty id
is just the wav extension, and decode only ever emits malformed-header
or empty-text warnings, so no warning complains about the empty id. -/
theorem decode_empty_id_block (d block : List Char)
    (h1 : block ∈ splitSep d) (h2 : pyStrip block ≠ [])
    (h3 : blockHeader block = [':']) :
    blockId block = [] ∧
    ([] : List Char) ∈ (decode d).1.map Prod.fst ∧
    artifactName [] = ".wav".toList ∧
    ∀ w ∈ (decode d).2, decodeWarningShape w := by
  have hid : blockId block = [] := by
    unfold blockId
    rw [h3]
    rfl
  have hc : endsWithColon (blockHeader block) = true := by
    rw [h3]
    decide
  refine ⟨hid, ?_, rfl, foldl_warn_shape (splitSep d) ([], []) (by simp)⟩
  have h := foldl_wf_key_mem (splitSep d) ([], []) block h1 h2 hc
  rwa [hid] at h

theorem decode_empty_id_block_witness :
    blockId (":\nalpha".toList) = [] ∧
    blockId (" \x1f:\nbeta".toList) = [] ∧
    ([] : List Char) ∈ (decode (":\nalpha\n\n \x1f:\nbeta\n\n".toList)).1.map Prod.fst ∧
    artifactName [] = ".wav".toList := by
  have h1 := decode_empty_id_block (":\nalpha\n\n \x1f:\nbeta\n\n".toList)
    (":\nalpha".toList) (by decide) (by decide) (by decide)
  have h2 := decode_empty_id_block (":\nalpha\n\n \x1f:\nbeta\n\n".toList)
    (" \x1f:\nbeta".toList) (by decide) (by decide) (by decide)
  exact ⟨h1.1, h2.1, h1.2.1, h1.2.2.1⟩

/-- C1 (counterexample): the round-trip law as stated by the spec fails
on the code: the batch with id x and text with a leading space satisfies
every stated condition (the id has no colon, no newline and no
surrounding whitespace; the text has no blank line), yet decoding its
encoding trims the text line and returns a different batch. -/
theorem roundTrip_claim_counterexample :
    claimIdB ("x".toList) = true ∧ noBlankLinesB (" a".toList) = true ∧
    (decode (encode [("x".toList, " a".toList)])).1 ≠ [("x".toList, " a".toList)] :=
  ⟨by decide, by decide, by decide⟩

/-- C1 (amended): round-trip law: for every batch with pairwise distinct
ids in which every id is stripped and free of colons and line breaks,
and every text is empty or a newline join of nonempty stripped lines
free of further line-break characters, decoding the encoding returns the
batch unchanged: same ids, same texts, same order. -/
theorem decode_encode_roundTrip (b : Batch)
    (hnd : (b.map Prod.fst).Nodup)
    (hg : ∀ e ∈ b, goodIdB e.1 = true ∧ goodTextB e.2 = true) :
    (decode (encode b)).1 = b := by
  rw [decode_encode_core b hnd
    (fun e he => ⟨goodIdB_good e.1 (hg e he).1, goodTextB_elim e.2 (hg e he).2⟩)]

theorem decode_encode_roundTrip_witness :
    (([("img1".toList, "HELLO WORLD".toList), ("img2".toList, "line1\nline2".toList),
       ("img3".toList, ([] : List Char))].map Prod.fst).Nodup) ∧
    (decode (encode [("img1".toList, "HELLO WORLD".toList),
        ("img2".toList, "line1\nline2".toList), ("img3".toList, ([] : List Char))])).1 =
      [("img1".toList, "HELLO WORLD".toList), ("img2".toList, "line1\nline2".toList),
       ("img3".toList, ([] : List Char))] :=
  ⟨by decide, decode_encode_roundTrip _ (by decide) (by decide)⟩

/-- C2: reconciliation convergence: with expected ids a, b, c, a sink
for which a and c have artifacts after the first generation attempt and
b only after the second, and any retry budget of at least two, the loop
terminates after exactly two scan-regenerate rounds and the final
failure report is empty. -/
theorem qc_convergence (m : Nat) (h : 2 ≤ m) :
    (quality_control genC2 batchABC [] m).rounds = 2 ∧
    (quality_control genC2 batchABC [] m).report = [] := by
  obtain ⟨k, rfl⟩ : ∃ k, m = k + 2 := ⟨m - 2, by omega⟩
  cases k with
  | zero => exact ⟨by decide, by decide⟩
  | succ k' =>
      rcases hL : qcLoop genC2 (k' + 1 + 2) 1 ⟨batchABC.map Prod.fst, batchABC, [], []⟩
        with ⟨S, rounds, early⟩
      have h2 : ((S, rounds, early) : LoopState × Nat × Bool).2 = (2, true) := by
        rw [← hL, show k' + 1 + 2 = (k' + 1 + 1) + 1 from rfl, qcLoop_succ,
            if_neg (by decide), qcLoop_succ, if_neg (by decide), qcLoop_succ,
            if_pos (by decide)]
      obtain ⟨hr, he⟩ := Prod.ext_iff.mp h2
      simp only at hr he
      subst hr
      subst he
      have hq : quality_control genC2 batchABC [] (k' + 1 + 2) = ⟨2, true, [], S⟩ := by
        unfold quality_control
        rw [hL]
        rfl
      rw [hq]
      exact ⟨rfl, rfl⟩

theorem qc_convergence_witness :
    2 ≤ 3 ∧ (quality_control genC2 batchABC [] 3).rounds = 2 ∧
    (quality_control genC2 batchABC [] 3).report = [] :=
  ⟨by decide, (qc_convergence 3 (by decide)).1, (qc_convergence 3 (by decide)).2⟩

/-- Lemma: every wav artifact of a nonempty id found in the directory
contributes that id to the stems of the final glob re-scan. -/
theorem globWav_artifact (n : List Char) : globWav (artifactName n) = true := by
  unfold globWav artifactName
  rw [List.reverse_append,
      show (4 : Nat) = (".wav".toList.reverse).length from rfl, List.take_left]
  simp

theorem pathStem_artifact (n : List Char) (hn : n ≠ []) :
    pathStem (artifactName n) = n := by
  have hidx : (artifactName n).reverse.findIdx? (fun c => c = '.') = some 3 := by
    unfold artifactName
    rw [List.reverse_append]
    show (('v' :: 'a' :: 'w' :: '.' :: []) ++ n.reverse).findIdx? (fun c => c = '.') = some 3
    simp [List.findIdx?_cons]
  have hlen : (artifactName n).length = n.length + 4 := by
    simp [artifactName]
  have hpos : 0 < n.length := List.length_pos.mpr hn
  unfold pathStem
  rw [hidx]
  show (if 0 < (artifactName n).length - 1 - 3 ∧ (3 : Nat) ≠ 0
        then (artifactName n).take ((artifactName n).length - 1 - 3)
        else artifactName n) = n
  rw [if_pos ⟨by omega, by omega⟩, hlen,
      show n.length + 4 - 1 - 3 = n.length from by omega]
  exact List.take_left n (".wav".toList)

theorem artifact_mem_globStems (n : List Char) (hn : n ≠ [])
    (files : List (List Char)) (hmem : artifactName n ∈ files) :
    n ∈ globStems files := by
  unfold globStems
  exact List.mem_map.mpr ⟨artifactName n,
    List.mem_filter.mpr ⟨hmem, globWav_artifact n⟩, pathStem_artifact n hn⟩

/-- C3 (counterexample): the exhaustion claim as stated is false on the
code: the final re-scan compares expected ids against the stems of the
wav files found by glob, and the stem of the artifact of the empty id is
.wav, never the empty string, so with the empty id expected and its
artifact already present the program still lists the empty id (with the
placeholder) in the final report although its artifact exists. -/
theorem qc_exhaustion_claim_counterexample :
    (quality_control genCE batchCE [".wav".toList] 1).earlyOk = false ∧
    artifactName [] ∈ (quality_control genCE batchCE [".wav".toList] 1).final.files ∧
    (([] : List Char), noErrMsg) ∈ (quality_control genCE batchCE [".wav".toList] 1).report :=
  ⟨by decide, by decide, by decide⟩

/-- C3 (amended): reconciliation exhaustion: whenever the loop exhausts
its attempts without an early return, the final report lists exactly the
expected ids not among the stems of the wav files the final glob re-scan
finds after the last regeneration round, each paired with its most
recently recorded error message, or the placeholder when no error was
ever recorded; an id with a nonempty name whose artifact exists does not
appear (only the empty id can be reported with its artifact present). -/
theorem qc_exhaustion_report (gen : Nat → List Char → List Char → GenOutcome)
    (batch : Batch) (files0 : List (List Char)) (m : Nat)
    (h : (quality_control gen batch files0 m).earlyOk = false) (n msg : List Char) :
    ((n, msg) ∈ (quality_control gen batch files0 m).report ↔
      (n ∈ batch.map Prod.fst ∧
       ¬ n ∈ globStems (quality_control gen batch files0 m).final.files ∧
       msg = (alookup (quality_control gen batch files0 m).final.reasons n).getD noErrMsg)) ∧
    (n ≠ [] → artifactName n ∈ (quality_control gen batch files0 m).final.files →
      ¬ (n, msg) ∈ (quality_control gen batch files0 m).report) := by
  rcases hL : qcLoop gen m 1 ⟨batch.map Prod.fst, batch, files0, []⟩ with ⟨S, rounds, early⟩
  have hexp : S.expected = batch.map Prod.fst := by
    have hf := (qcLoop_frame gen m 1 ⟨batch.map Prod.fst, batch, files0, []⟩).1
    rw [hL] at hf
    exact hf
  have hq : quality_control gen batch files0 m =
      if early = true then ⟨rounds, true, [], S⟩
      else ⟨rounds, false, (finalMissing S.expected S.files).map
        (fun x => (x, (alookup S.reasons x).getD noErrMsg)), S⟩ := by
    unfold quality_control
    rw [hL]
  cases early with
  | true =>
      rw [hq] at h
      simp at h
  | false =>
      rw [hq, if_neg (by simp)] at h ⊢
      have hiff : (n, msg) ∈ (finalMissing S.expected S.files).map
          (fun x => (x, (alookup S.reasons x).getD noErrMsg)) ↔
          (n ∈ batch.map Prod.fst ∧ ¬ n ∈ globStems S.files ∧
           msg = (alookup S.reasons n).getD noErrMsg) := by
        unfold finalMissing
        rw [hexp]
        constructor
        · intro hmem
          obtain ⟨x, hx, hxe⟩ := List.mem_map.mp hmem
          obtain ⟨hx1, hx2⟩ := List.mem_filter.mp hx
          have hxn : x = n := (Prod.ext_iff.mp hxe).1
          subst hxn
          refine ⟨hx1, by simpa using hx2, ((Prod.ext_iff.mp hxe).2).symm⟩
        · rintro ⟨h1, h2, rfl⟩
          exact List.mem_map.mpr ⟨n, List.mem_filter.mpr ⟨h1, by simpa using h2⟩, rfl⟩
      refine ⟨hiff, fun hn hart hmem => ?_⟩
      exact (hiff.mp hmem).2.1 (artifact_mem_globStems n hn S.files hart)

theorem qc_exhaustion_report_witness :
    (quality_control genC3 batchABC [] 3).earlyOk = false ∧
    ("b".toList, ttsErr 3) ∈ (quality_control genC3 batchABC [] 3).report ∧
    ("c".toList, noErrMsg) ∈ (quality_control genC3 batchABC [] 3).report ∧
    ¬ ∃ msg, ("a".toList, msg) ∈ (quality_control genC3 batchABC [] 3).report := by
  refine ⟨by decide, ?_, ?_, ?_⟩
  · exact ((qc_exhaustion_report genC3 batchABC [] 3 (by decide) ("b".toList) (ttsErr 3)).1).mpr
      (by decide)
  · exact ((qc_exhaustion_report genC3 batchABC [] 3 (by decide) ("c".toList) noErrMsg).1).mpr
      (by decide)
  · rintro ⟨msg, hm⟩
    exact (qc_exhaustion_report genC3 batchABC [] 3 (by decide) ("a".toList) msg).2
      (by decide) (by decide) hm
